import Mathlib

/-!
# Verification of the ZIP markdown-bundle editor

A shallow embedding of the repository's core code:

* `src/src/utils/zip.ts` — `readZipFile` (archive decode) and
  `createZipFile` (archive encode) built on JSZip;
* `src/src/types.ts` — the `ImageFile` / `Attachment` / `ZipContent` records;
* `src/src/App.tsx` — the inline reference resolvers (`components.img`,
  `components.a`), the rename flow (`RenameInput.handleSubmit` plus the
  `onRename` callbacks), the delete buttons, and `handleImageSave`.

Modelling conventions:

* JavaScript strings are `List Char` (`Str`), binary blobs are `List Nat`
  (`Bytes`, one `Nat` per byte).  A blob's `size` is its byte length.
* A parsed JSZip archive (the `contents.files` object) is an insertion
  ordered association list `ZipObj`; assigning to an existing key replaces
  the value in place, exactly as a JS object does (`objInsert`).  The byte
  serialisation performed by `generateAsync` / `loadAsync` is the JSZip
  library's own and is taken as a faithful identity on that entry list.
* `crypto.randomUUID()` is modelled by a deterministic fresh-id supply
  (`mintId`) threaded through decode as a counter; only freshness and
  presence of ids matter to the statements below.
* `decodeURIComponent` is modelled by `pctDecode`, which returns `none`
  where the JS function throws `URIError` (malformed percent escapes).
* The attachment object pushed by `readZipFile` carries **no** `id`
  property in the source, although `types.ts` declares one; the model
  therefore gives `Attachment` an `Option Str` id, `none` standing for the
  absent (`undefined`) property.
-/

/-- JavaScript strings, modelled as explicit character lists. -/
abbrev Str := List Char

/-- Binary content (blob / File bytes), one `Nat` per byte. -/
abbrev Bytes := List Nat

/-- ASCII whitespace, the relevant fragment of what `String.prototype.trim`
removes. -/
def isSpaceChar (c : Char) : Bool :=
  c == ' ' || c == '\t' || c == '\n' || c == '\r'

/-- `s.trim()`: drop whitespace from both ends. -/
def trimStr (s : Str) : Str :=
  ((s.dropWhile isSpaceChar).reverse.dropWhile isSpaceChar).reverse

/-- `s.endsWith(suf)`. -/
def endsWithStr (s suf : Str) : Bool :=
  suf == s.drop (s.length - suf.length)

/-- ASCII lower-casing, as the `i` regex flag behaves on ASCII patterns. -/
def toLowerStr (s : Str) : Str := s.map Char.toLower

/-- `s.split(c)` (single-character separator), as in `path.split('/')`. -/
def splitChar (c : Char) : Str → List Str
  | [] => [[]]
  | x :: xs =>
    let r := splitChar c xs
    if x = c then [] :: r else (x :: r.headD []) :: r.tail

/-- `path.split('/').pop() || ''` from `readZipFile`: the final path
segment. -/
def baseName (p : Str) : Str := (splitChar '/' p).getLastD []

/-- The regex `/\.(jpg|jpeg|png|gif|webp)$/i` from `readZipFile`. -/
def isImageName (s : Str) : Bool :=
  [".jpg", ".jpeg", ".png", ".gif", ".webp"].any
    (fun ext => endsWithStr (toLowerStr s) ext.toList)

/-- Deterministic model of `crypto.randomUUID()`: the `n`-th fresh id. -/
def mintId (n : Nat) : Str := Nat.toDigits 10 n

/-- `interface ImageFile` (types.ts).  The `url` and `file` fields both
denote the image's binary content and are collapsed into `content`. -/
structure ImageFile where
  id : Str
  name : Str
  content : Bytes
  size : Nat
deriving DecidableEq, Repr

/-- `interface Attachment` (types.ts) as it exists at runtime: the decode
path constructs attachments without the declared `id` property, so the id
is optional here (`none` = the property is absent / `undefined`). -/
structure Attachment where
  id : Option Str
  name : Str
  content : Bytes
  size : Nat
deriving DecidableEq, Repr

/-- `interface ZipContent` (types.ts): the decoded bundle.  The readme
text is kept as its UTF-8 byte sequence. -/
structure ZipContent where
  readme : Bytes
  images : List ImageFile
  attachments : List Attachment
deriving DecidableEq, Repr

/-- One JSZip entry: directory flag plus raw bytes. -/
structure ZEntry where
  isDir : Bool
  data : Bytes
deriving DecidableEq, Repr

/-- The JSZip `contents.files` object: path-keyed, insertion ordered. -/
abbrev ZipObj := List (Str × ZEntry)

/-- The path literal `'README.md'`. -/
def readmeName : Str := "README.md".toList

/-- The `images/` folder key (also the prefix of every image entry). -/
def imagesRoot : Str := "images/".toList

/-- The `attachments/` folder key (also the prefix of every attachment
entry). -/
def attachmentsRoot : Str := "attachments/".toList

/-- JS object property assignment `files[k] = v`: replaces in place when
the key exists, appends otherwise. -/
def objInsert (l : ZipObj) (k : Str) (v : ZEntry) : ZipObj :=
  if l.any (fun p => p.1 == k) then
    l.map (fun p => if p.1 == k then (k, v) else p)
  else l ++ [(k, v)]

/-- `contents.file('README.md')`: exact-path lookup among non-directory
entries. -/
def zipFileLookup (entries : ZipObj) (k : Str) : Option ZEntry :=
  (entries.find? (fun pe => !pe.2.isDir && pe.1 == k)).map (·.2)

/-- The classification loop of `readZipFile` (zip.ts lines 15-40): walk the
entries in object order, skip directories, turn image-named files into
`ImageFile`s (minting a fresh id, counter `n`) and every other non-README
file into an `Attachment` (minting nothing — the source omits `id`). -/
def classifyFrom (n : Nat) : ZipObj → List ImageFile × List Attachment
  | [] => ([], [])
  | pe :: rest =>
    if pe.2.isDir then classifyFrom n rest
    else
      let fn := baseName pe.1
      if isImageName fn then
        let r := classifyFrom (n + 1) rest
        (⟨mintId n, fn, pe.2.data, pe.2.data.length⟩ :: r.1, r.2)
      else if pe.1 ≠ readmeName then
        let r := classifyFrom n rest
        (r.1, ⟨none, fn, pe.2.data, pe.2.data.length⟩ :: r.2)
      else classifyFrom n rest

/-- `readZipFile` (zip.ts lines 4-47) on a parsed archive. -/
def readZipFile (entries : ZipObj) : ZipContent :=
  let readmeContent :=
    match zipFileLookup entries readmeName with
    | some e => e.data
    | none => []
  let r := classifyFrom 0 entries
  ⟨readmeContent, r.1, r.2⟩

/-- `createZipFile` (zip.ts lines 49-74): README first, then the
`images/` folder and each image under `images/<name>`, then the
`attachments/` folder and each attachment under `attachments/<name>`. -/
def createZipFile (markdown : Bytes) (images : List ImageFile)
    (attachments : List Attachment) : ZipObj :=
  attachments.foldl
    (fun z a => objInsert z (attachmentsRoot ++ a.name) ⟨false, a.content⟩)
    (objInsert
      (images.foldl
        (fun z i => objInsert z (imagesRoot ++ i.name) ⟨false, i.content⟩)
        (objInsert (objInsert [] readmeName ⟨false, markdown⟩)
          imagesRoot ⟨true, []⟩))
      attachmentsRoot ⟨true, []⟩)

/-- One hex digit, as `decodeURIComponent` reads `%XX` escapes. -/
def hexDigit? (c : Char) : Option Nat :=
  if '0' ≤ c ∧ c ≤ '9' then some (c.toNat - 48)
  else if 'a' ≤ c ∧ c ≤ 'f' then some (c.toNat - 87)
  else if 'A' ≤ c ∧ c ≤ 'F' then some (c.toNat - 55)
  else none

/-- `decodeURIComponent`: decode `%XX` escapes; `none` models the
`URIError` the JS function throws on a malformed escape. -/
def pctDecode : Str → Option Str
  | [] => some []
  | ['%'] => none
  | ['%', _] => none
  | '%' :: a :: b :: rest =>
    match hexDigit? a, hexDigit? b with
    | some x, some y =>
      (pctDecode rest).map (fun t => Char.ofNat (16 * x + y) :: t)
    | _, _ => none
  | c :: rest => (pctDecode rest).map (c :: ·)

/-- `src.replace(/[!\\]/g, '')` (App.tsx line 396): drop every `!` and
backslash before URL-decoding. -/
def removeBangBs (s : Str) : Str :=
  s.filter (fun c => !(c == '!') && !(c == '\\'))

/-- The regex `replace(/^[![(]|[)\]]/g, '')` (App.tsx lines 404-405):
one leading `!`, `[` or `(` is dropped, and every `)` and `]` anywhere is
dropped. -/
def stripLeadPunct : Str → Str
  | [] => []
  | c :: rest => if c == '!' || c == '[' || c == '(' then rest else c :: rest

/-- Remove every `)` and `]` (the unanchored alternative of the same
regex). -/
def stripBrackets (s : Str) : Str :=
  s.filter (fun c => !(c == ')') && !(c == ']'))

/-- `x.replace(/^[![(]|[)\]]/g, '').trim()`: the cleaning applied to the
decoded target and to each candidate image name. -/
def cleanRef (s : Str) : Str := trimStr (stripBrackets (stripLeadPunct s))

/-- The five match conditions of `components.img` (App.tsx lines 399-412),
evaluated against the decoded target `d`. -/
def imgMatch (d : Str) (img : ImageFile) : Bool :=
  let imgPath := imagesRoot ++ img.name
  let cleanedSrc := cleanRef d
  let cleanedImgName := cleanRef img.name
  cleanedSrc == imgPath || cleanedSrc == img.name ||
    endsWithStr cleanedSrc imgPath || endsWithStr cleanedSrc img.name ||
    cleanedSrc == cleanedImgName

/-- Outcome of rendering one markdown image reference. -/
inductive ImgRes where
  /-- A store asset matched; its `url` is rendered. -/
  | found : ImageFile → ImgRes
  /-- No asset matched; the diagnostic box shows the decoded target. -/
  | notFound : Str → ImgRes
deriving DecidableEq, Repr

/-- `components.img` (App.tsx lines 394-432): strip `!`/`\`, URL-decode
(`none` = the `URIError` thrown on malformed input), then return the first
store image satisfying `imgMatch`, or the not-found diagnostic carrying
the decoded source. -/
def resolveImage (src : Str) (images : List ImageFile) : Option ImgRes :=
  (pctDecode (removeBangBs src)).map (fun decodedSrc =>
    match images.find? (imgMatch decodedSrc) with
    | some image => ImgRes.found image
    | none => ImgRes.notFound decodedSrc)

/-- The two match conditions of `components.a` (App.tsx lines 436-439). -/
def attMatch (d : Str) (a : Attachment) : Bool :=
  let attachPath := attachmentsRoot ++ a.name
  d == attachPath || endsWithStr d attachPath

/-- Outcome of rendering one markdown link. -/
inductive ARes where
  /-- A store attachment matched; the download button is rendered. -/
  | found : Attachment → ARes
  /-- No attachment matched; a plain external link is rendered. -/
  | plain : ARes
deriving DecidableEq, Repr

/-- `components.a` (App.tsx lines 434-489): URL-decode the href (`none` =
`URIError`), then the first attachment equal to or suffix-matching
`attachments/<name>` wins; otherwise a plain link. -/
def resolveAttachment (href : Str) (attachments : List Attachment) :
    Option ARes :=
  (pctDecode href).map (fun decodedHref =>
    match attachments.find? (attMatch decodedHref) with
    | some a => ARes.found a
    | none => ARes.plain)

/-- Modelled from the spec's words, for comparison with the source
(claim C5): attachment resolution "follows the same cleaning and matching
steps" as image resolution "against the `attachments/<name>` namespace"
without the image extension heuristic — i.e. the `components.img` pipeline
verbatim with `attachments/` in place of `images/`. -/
def resolveAttachmentClaim (href : Str) (attachments : List Attachment) :
    Option ARes :=
  (pctDecode (removeBangBs href)).map (fun decodedHref =>
    match attachments.find? (fun a =>
      let attachPath := attachmentsRoot ++ a.name
      let cleanedSrc := cleanRef decodedHref
      let cleanedName := cleanRef a.name
      cleanedSrc == attachPath || cleanedSrc == a.name ||
        endsWithStr cleanedSrc attachPath || endsWithStr cleanedSrc a.name ||
        cleanedSrc == cleanedName) with
    | some a => ARes.found a
    | none => ARes.plain)

/-- `handleImageSave` (App.tsx lines 141-159): replace the matched
image's `file`/`url` by the edited content.  The source does **not**
touch `size`. -/
def handleImageSave (images : List ImageFile) (editingId : Str)
    (edited : Bytes) : List ImageFile :=
  images.map (fun img =>
    if img.id == editingId then { img with content := edited } else img)

/-- `handleAttachmentUpload` (App.tsx lines 92-104): ingestion mints a
fresh id per file (`startId` numbers the fresh-id supply). -/
def handleAttachmentUpload (startId : Nat) (files : List (Str × Bytes)) :
    List Attachment :=
  files.enum.map (fun kf =>
    ⟨some (mintId (startId + kf.1)), kf.2.1, kf.2.2, kf.2.2.length⟩)

/-- `RenameInput.handleSubmit` (App.tsx lines 19-27): trim; submit the
trimmed value when it is non-empty and differs from the current name,
otherwise cancel (`none`). -/
def renameSubmit (value oldName : Str) : Option Str :=
  let trimmedValue := trimStr value
  if trimmedValue ≠ [] ∧ trimmedValue ≠ oldName then some trimmedValue
  else none

/-- The image `onRename` callback (App.tsx lines 243-250): rewrite the
matched asset's name, leave every other asset alone. -/
def renameImages (images : List ImageFile) (target : ImageFile)
    (newName : Str) : List ImageFile :=
  images.map (fun img => if img = target then { img with name := newName } else img)

/-- The attachment `onRename` callback (App.tsx lines 310-317). -/
def renameAttachments (attachments : List Attachment) (target : Attachment)
    (newName : Str) : List Attachment :=
  attachments.map (fun a => if a = target then { a with name := newName } else a)

/-- Submit-then-apply for an image rename. -/
def renameImageFlow (images : List ImageFile) (target : ImageFile)
    (value : Str) : List ImageFile :=
  match renameSubmit value target.name with
  | some t => renameImages images target t
  | none => images

/-- Submit-then-apply for an attachment rename. -/
def renameAttachmentFlow (attachments : List Attachment)
    (target : Attachment) (value : Str) : List Attachment :=
  match renameSubmit value target.name with
  | some t => renameAttachments attachments target t
  | none => attachments

/-- The image delete button (App.tsx lines 275-282):
`images.filter(img => img !== image)`. -/
def removeImage (images : List ImageFile) (target : ImageFile) :
    List ImageFile :=
  images.filter (fun img => !(img == target))

/-- The attachment delete button (App.tsx lines 357-360). -/
def removeAttachment (attachments : List Attachment) (target : Attachment) :
    List Attachment :=
  attachments.filter (fun a => !(a == target))

/-! ## Concrete fixtures for witnesses -/

/-- A concrete image asset. -/
def exImg : ImageFile := ⟨"id1".toList, "cat.png".toList, [1, 2], 2⟩

/-- Another concrete image asset, distinct from `exImg`. -/
def exImgB : ImageFile := ⟨"id2".toList, "dog.png".toList, [3], 1⟩

/-- A concrete attachment asset. -/
def exAtt : Attachment := ⟨some "id3".toList, "notes.txt".toList, [4, 5], 2⟩

/-- Another concrete attachment asset, distinct from `exAtt`. -/
def exAttB : Attachment := ⟨some "id4".toList, "data.bin".toList, [6], 1⟩

/-! ## General list and string lemmas -/

theorem filter_all {α} (p : α → Bool) (l : List α)
    (h : ∀ x ∈ l, p x = true) : l.filter p = l := by
  induction l with
  | nil => rfl
  | cons x xs ih =>
    simp only [List.filter_cons, h x (by simp)]
    exact congrArg (x :: ·) (ih fun y hy => h y (by simp [hy]))

theorem filter_none {α} (p : α → Bool) (l : List α)
    (h : ∀ x ∈ l, p x = false) : l.filter p = [] := by
  induction l with
  | nil => rfl
  | cons x xs ih =>
    simp only [List.filter_cons, h x (by simp)]
    exact ih fun y hy => h y (by simp [hy])

theorem filter_over_map {α β} (f : α → β) (p : β → Bool) (l : List α) :
    (l.map f).filter p = (l.filter (fun x => p (f x))).map f := by
  induction l with
  | nil => rfl
  | cons x xs ih =>
    simp only [List.map_cons, List.filter_cons]
    cases h : p (f x) <;> simp [h, ih]

theorem find_first_iff {α} (p : α → Bool) (l : List α) (a : α) :
    l.find? p = some a ↔
      p a = true ∧ ∃ l₁ l₂, l = l₁ ++ a :: l₂ ∧ ∀ b ∈ l₁, p b = false := by
  induction l with
  | nil => simp [List.find?]
  | cons x xs ih =>
    cases hx : p x with
    | true =>
      rw [List.find?_cons_of_pos _ hx]
      constructor
      · rintro h
        injection h with h
        subst h
        exact ⟨hx, [], xs, rfl, by simp⟩
      · rintro ⟨hpa, l₁, l₂, heq, hall⟩
        cases l₁ with
        | nil => simp at heq; simp [heq.1]
        | cons y ys =>
          have hy : y = x := by
            have := congrArg (List.headD · a) heq
            simpa using this.symm
          have : p x = false := hy ▸ hall y (by simp)
          simp [this] at hx
    | false =>
      rw [List.find?_cons_of_neg _ (by simp [hx]), ih]
      constructor
      · rintro ⟨hpa, l₁, l₂, heq, hall⟩
        refine ⟨hpa, x :: l₁, l₂, by simp [heq], ?_⟩
        intro b hb
        rcases List.mem_cons.mp hb with rfl | hb
        · exact hx
        · exact hall b hb
      · rintro ⟨hpa, l₁, l₂, heq, hall⟩
        cases l₁ with
        | nil =>
          have : a = x := by
            have := congrArg (List.headD · a) heq
            simpa using this.symm
          rw [this] at hpa
          simp [hpa] at hx
        | cons y ys =>
          have hxs : xs = ys ++ a :: l₂ := by simpa using congrArg List.tail heq
          exact ⟨hpa, ys, l₂, hxs, fun b hb => hall b (by simp [hb])⟩

theorem append_ne_self_of_ne_nil {α} (l n : List α) (h : n ≠ []) :
    l ++ n ≠ l := by
  intro he
  have := congrArg List.length he
  simp at this
  exact h this

theorem ne_of_head (a b : Char) (s t : Str) (h : a ≠ b) : a :: s ≠ b :: t := by
  intro he
  injection he with h1 _
  exact h h1

/-! ## splitChar / baseName lemmas -/

theorem splitChar_ne_nil (c : Char) (s : Str) : splitChar c s ≠ [] := by
  cases s with
  | nil => simp [splitChar]
  | cons x xs =>
    simp only [splitChar]
    split <;> simp

theorem splitChar_no_mem (c : Char) (s : Str) (h : c ∉ s) :
    splitChar c s = [s] := by
  induction s with
  | nil => rfl
  | cons x xs ih =>
    have hx : x ≠ c := fun he => h (by simp [he])
    have hxs : c ∉ xs := fun hm => h (by simp [hm])
    simp [splitChar, hx, ih hxs]

theorem splitChar_two_of_mem (c : Char) (s : Str) (h : c ∈ s) :
    ∃ a b t, splitChar c s = a :: b :: t := by
  induction s with
  | nil => cases h
  | cons x xs ih =>
    by_cases hx : x = c
    · cases hsp : splitChar c xs with
      | nil => exact absurd hsp (splitChar_ne_nil c xs)
      | cons y t => exact ⟨[], y, t, by simp [splitChar, hx, hsp]⟩
    · have hmem : c ∈ xs := by
        rcases List.mem_cons.mp h with he | hm
        · exact absurd he.symm hx
        · exact hm
      obtain ⟨a, b, t, hab⟩ := ih hmem
      exact ⟨x :: a, b, t, by simp [splitChar, hx, hab]⟩

theorem splitChar_getLast?_cons (c x : Char) (rest : Str) (h : c ∈ rest) :
    (splitChar c (x :: rest)).getLast? = (splitChar c rest).getLast? := by
  obtain ⟨a, b, t, hab⟩ := splitChar_two_of_mem c rest h
  by_cases hx : x = c
  · simp [splitChar, hx, hab]
  · simp [splitChar, hx, hab, List.getLast?_cons_cons]

theorem baseName_no_slash (p : Str) (h : '/' ∉ p) : baseName p = p := by
  simp [baseName, splitChar_no_mem '/' p h]

theorem baseName_concat (pre n : Str) (h : '/' ∉ n) :
    baseName (pre ++ '/' :: n) = n := by
  induction pre with
  | nil =>
    simp [baseName, splitChar, splitChar_no_mem '/' n h]
  | cons x pre ih =>
    have hm : '/' ∈ (pre ++ '/' :: n) := by simp
    show baseName (x :: (pre ++ '/' :: n)) = n
    unfold baseName at ih ⊢
    rw [List.getLastD_eq_getLast?, splitChar_getLast?_cons _ _ _ hm,
      ← List.getLastD_eq_getLast?]
    exact ih

/-! ## objInsert lemmas -/

theorem objInsert_fresh (l : ZipObj) (k : Str) (v : ZEntry)
    (h : ∀ kv ∈ l, kv.1 ≠ k) : objInsert l k v = l ++ [(k, v)] := by
  unfold objInsert
  have hany : l.any (fun p => p.1 == k) = false := by
    rw [List.any_eq_false]
    intro p hp
    simpa using h p hp
  simp [hany]

theorem foldl_objInsert_fresh {α} (key : α → Str) (val : α → ZEntry)
    (l : List α) (base : ZipObj)
    (hfresh : ∀ x ∈ l, ∀ kv ∈ base, kv.1 ≠ key x)
    (hnd : (l.map key).Nodup) :
    l.foldl (fun z x => objInsert z (key x) (val x)) base
      = base ++ l.map (fun x => (key x, val x)) := by
  induction l generalizing base with
  | nil => simp
  | cons x xs ih =>
    simp only [List.foldl_cons, List.map_cons]
    rw [objInsert_fresh base (key x) (val x)
      (fun kv hkv => hfresh x (by simp) kv hkv)]
    rw [ih (base ++ [(key x, val x)]) ?_ ?_]
    · simp
    · intro y hy kv hkv
      rcases List.mem_append.mp hkv with h1 | h2
      · exact hfresh y (by simp [hy]) kv h1
      · have hkx : kv = (key x, val x) := by simpa using h2
        subst hkx
        have hnx : key x ∉ xs.map key := (List.nodup_cons.mp hnd).1
        intro he
        have he' : key x = key y := he
        exact hnx (by rw [he']; exact List.mem_map_of_mem key hy)
    · exact (List.nodup_cons.mp hnd).2

/-! ## Decode characterization -/

/-- The attachment table produced by the decode loop is exactly the
non-directory, non-image, non-`README.md` entries, keyed by base name. -/
theorem classify_snd (n : Nat) (es : ZipObj) :
    (classifyFrom n es).2 =
      (es.filter (fun pe => !pe.2.isDir && !isImageName (baseName pe.1)
          && !(pe.1 == readmeName))).map
        (fun pe => (⟨none, baseName pe.1, pe.2.data, pe.2.data.length⟩ :
          Attachment)) := by
  induction es generalizing n with
  | nil => rfl
  | cons pe rest ih =>
    by_cases hd : pe.2.isDir
    · simp [classifyFrom, hd, ih n]
    · by_cases himg : isImageName (baseName pe.1)
      · simp [classifyFrom, hd, himg, ih (n + 1)]
      · by_cases hr : pe.1 = readmeName
        · simp [classifyFrom, hd, himg, hr, ih n,
            show isImageName (baseName readmeName) = false from by decide]
        · simp [classifyFrom, hd, himg, hr, ih n]

/-- The image table produced by the decode loop, identities projected
away, is exactly the non-directory image-named entries keyed by base
name, with content and size equal to the raw bytes and their length. -/
theorem classify_fst_proj (n : Nat) (es : ZipObj) :
    (classifyFrom n es).1.map (fun i => (i.name, i.content, i.size)) =
      (es.filter (fun pe => !pe.2.isDir && isImageName (baseName pe.1))).map
        (fun pe => (baseName pe.1, pe.2.data, pe.2.data.length)) := by
  induction es generalizing n with
  | nil => rfl
  | cons pe rest ih =>
    by_cases hd : pe.2.isDir
    · simp [classifyFrom, hd, ih n]
    · by_cases himg : isImageName (baseName pe.1)
      · simp [classifyFrom, hd, himg, ih (n + 1)]
      · by_cases hr : pe.1 = readmeName
        · simp [classifyFrom, hd, himg, hr, ih n,
            show isImageName (baseName readmeName) = false from by decide]
        · simp [classifyFrom, hd, himg, hr, ih n]

/-! ## Key disjointness on the archive layout -/

theorem imagesKey_ne_readme (n : Str) : imagesRoot ++ n ≠ readmeName := by
  show 'i' :: ("mages/".toList ++ n) ≠ 'R' :: "EADME.md".toList
  exact ne_of_head _ _ _ _ (by decide)

theorem attachmentsKey_ne_readme (n : Str) :
    attachmentsRoot ++ n ≠ readmeName := by
  show 'a' :: ("ttachments/".toList ++ n) ≠ 'R' :: "EADME.md".toList
  exact ne_of_head _ _ _ _ (by decide)

theorem attachmentsKey_ne_imagesRoot (n : Str) :
    attachmentsRoot ++ n ≠ imagesRoot := by
  show 'a' :: ("ttachments/".toList ++ n) ≠ 'i' :: "mages/".toList
  exact ne_of_head _ _ _ _ (by decide)

theorem attachmentsKey_ne_imagesKey (m n : Str) :
    attachmentsRoot ++ m ≠ imagesRoot ++ n := by
  show 'a' :: ("ttachments/".toList ++ m) ≠ 'i' :: ("mages/".toList ++ n)
  exact ne_of_head _ _ _ _ (by decide)

theorem attachmentsRoot_ne_imagesKey (n : Str) :
    attachmentsRoot ≠ imagesRoot ++ n := by
  show 'a' :: "ttachments/".toList ≠ 'i' :: ("mages/".toList ++ n)
  exact ne_of_head _ _ _ _ (by decide)

theorem isImageName_ne_nil (n : Str) (h : isImageName n = true) : n ≠ [] := by
  intro he
  subst he
  simp [isImageName, endsWithStr, toLowerStr] at h

/-- Under unique, non-empty, slash-free names, `createZipFile` is a plain
append-only entry list: README, the `images/` folder, each image at
`images/<name>`, the `attachments/` folder, each attachment at
`attachments/<name>`. -/
theorem createZipFile_eq (r : Bytes) (imgs : List ImageFile)
    (atts : List Attachment)
    (himg : ∀ i ∈ imgs, i.name ≠ [])
    (hatt : ∀ a ∈ atts, a.name ≠ [])
    (hui : (imgs.map (·.name)).Nodup)
    (hua : (atts.map (·.name)).Nodup) :
    createZipFile r imgs atts =
      (readmeName, ⟨false, r⟩) :: (imagesRoot, ⟨true, []⟩) ::
        (imgs.map (fun i => (imagesRoot ++ i.name, (⟨false, i.content⟩ : ZEntry))))
        ++ ((attachmentsRoot, ⟨true, []⟩) ::
          atts.map (fun a => (attachmentsRoot ++ a.name, (⟨false, a.content⟩ : ZEntry)))) := by
  have h12 : objInsert (objInsert [] readmeName ⟨false, r⟩)
      imagesRoot ⟨true, []⟩
      = [(readmeName, ⟨false, r⟩), (imagesRoot, ⟨true, []⟩)] := by
    have hb : (readmeName == imagesRoot) = false := by decide
    simp [objInsert, hb]
  have himgfresh : ∀ i ∈ imgs,
      ∀ kv ∈ [(readmeName, (⟨false, r⟩ : ZEntry)), (imagesRoot, ⟨true, []⟩)],
        kv.1 ≠ imagesRoot ++ i.name := by
    intro i hi kv hkv
    rcases List.mem_cons.mp hkv with h | h
    · subst h
      exact fun he => imagesKey_ne_readme i.name he.symm
    · have : kv = (imagesRoot, ⟨true, []⟩) := by simpa using h
      subst this
      exact fun he => append_ne_self_of_ne_nil imagesRoot i.name
        (himg i hi) he.symm
  have himgnd : (imgs.map (fun i => imagesRoot ++ i.name)).Nodup := by
    have hc : (fun i : ImageFile => imagesRoot ++ i.name)
        = (fun n => imagesRoot ++ n) ∘ (fun i : ImageFile => i.name) := rfl
    rw [hc, ← List.map_map]
    exact hui.map (fun a b hab => List.append_cancel_left hab)
  have h3 : imgs.foldl
      (fun z i => objInsert z (imagesRoot ++ i.name) ⟨false, i.content⟩)
      [(readmeName, ⟨false, r⟩), (imagesRoot, ⟨true, []⟩)]
      = [(readmeName, ⟨false, r⟩), (imagesRoot, ⟨true, []⟩)] ++
        imgs.map (fun i => (imagesRoot ++ i.name, ⟨false, i.content⟩)) :=
    foldl_objInsert_fresh (fun i => imagesRoot ++ i.name)
      (fun i => ⟨false, i.content⟩) imgs
      [(readmeName, ⟨false, r⟩), (imagesRoot, ⟨true, []⟩)] himgfresh himgnd
  have hattdirfresh : ∀ kv ∈
      ([(readmeName, (⟨false, r⟩ : ZEntry)), (imagesRoot, ⟨true, []⟩)] ++
        imgs.map (fun i => (imagesRoot ++ i.name, (⟨false, i.content⟩ : ZEntry)))),
      kv.1 ≠ attachmentsRoot := by
    intro kv hkv
    rcases List.mem_append.mp hkv with h | h
    · rcases List.mem_cons.mp h with h | h
      · subst h
        exact (by decide : readmeName ≠ attachmentsRoot)
      · have : kv = (imagesRoot, ⟨true, []⟩) := by simpa using h
        subst this
        exact (by decide : imagesRoot ≠ attachmentsRoot)
    · obtain ⟨i, _, rfl⟩ := List.mem_map.mp h
      exact fun he => attachmentsRoot_ne_imagesKey i.name he.symm
  have h4 : objInsert
      ([(readmeName, ⟨false, r⟩), (imagesRoot, ⟨true, []⟩)] ++
        imgs.map (fun i => (imagesRoot ++ i.name, ⟨false, i.content⟩)))
      attachmentsRoot ⟨true, []⟩
      = ([(readmeName, ⟨false, r⟩), (imagesRoot, ⟨true, []⟩)] ++
        imgs.map (fun i => (imagesRoot ++ i.name, ⟨false, i.content⟩)))
        ++ [(attachmentsRoot, ⟨true, []⟩)] :=
    objInsert_fresh _ attachmentsRoot ⟨true, []⟩ hattdirfresh
  have hattfresh : ∀ a ∈ atts,
      ∀ kv ∈ (([(readmeName, (⟨false, r⟩ : ZEntry)), (imagesRoot, ⟨true, []⟩)] ++
          imgs.map (fun i => (imagesRoot ++ i.name, (⟨false, i.content⟩ : ZEntry))))
          ++ [(attachmentsRoot, ⟨true, []⟩)]),
        kv.1 ≠ attachmentsRoot ++ a.name := by
    intro a ha kv hkv
    rcases List.mem_append.mp hkv with h | h
    · rcases List.mem_append.mp h with h | h
      · rcases List.mem_cons.mp h with h | h
        · subst h
          exact fun he => attachmentsKey_ne_readme a.name he.symm
        · have : kv = (imagesRoot, ⟨true, []⟩) := by simpa using h
          subst this
          exact fun he => attachmentsKey_ne_imagesRoot a.name he.symm
      · obtain ⟨i, _, rfl⟩ := List.mem_map.mp h
        exact fun he => attachmentsKey_ne_imagesKey a.name i.name he.symm
    · have : kv = (attachmentsRoot, ⟨true, []⟩) := by simpa using h
      subst this
      exact fun he => append_ne_self_of_ne_nil attachmentsRoot a.name
        (hatt a ha) he.symm
  have hattnd : (atts.map (fun a => attachmentsRoot ++ a.name)).Nodup := by
    have hc : (fun a : Attachment => attachmentsRoot ++ a.name)
        = (fun n => attachmentsRoot ++ n) ∘ (fun a : Attachment => a.name) := rfl
    rw [hc, ← List.map_map]
    exact hua.map (fun a b hab => List.append_cancel_left hab)
  have h5 : atts.foldl
      (fun z a => objInsert z (attachmentsRoot ++ a.name) ⟨false, a.content⟩)
      (([(readmeName, ⟨false, r⟩), (imagesRoot, ⟨true, []⟩)] ++
        imgs.map (fun i => (imagesRoot ++ i.name, ⟨false, i.content⟩)))
        ++ [(attachmentsRoot, ⟨true, []⟩)])
      = (([(readmeName, ⟨false, r⟩), (imagesRoot, ⟨true, []⟩)] ++
        imgs.map (fun i => (imagesRoot ++ i.name, ⟨false, i.content⟩)))
        ++ [(attachmentsRoot, ⟨true, []⟩)]) ++
        atts.map (fun a => (attachmentsRoot ++ a.name, ⟨false, a.content⟩)) :=
    foldl_objInsert_fresh (fun a => attachmentsRoot ++ a.name)
      (fun a => ⟨false, a.content⟩) atts _ hattfresh hattnd
  unfold createZipFile
  rw [h12, h3, h4, h5]
  simp

/-! ## Rename flow characterization (helpers for claim C8) -/

theorem renameImageFlow_eq (imgs : List ImageFile) (ti : ImageFile)
    (value : Str) :
    renameImageFlow imgs ti value =
      if trimStr value = [] then imgs
      else imgs.map (fun i =>
        if i = ti then { i with name := trimStr value } else i) := by
  unfold renameImageFlow renameSubmit renameImages
  by_cases h1 : trimStr value = []
  · simp [h1]
  · by_cases h2 : trimStr value = ti.name
    · simp only [h1, h2, ne_eq, not_true_eq_false, and_false, if_neg,
        not_false_eq_true, and_true, if_false]
      rw [if_neg (h2 ▸ h1)]
      have hall : ∀ i ∈ imgs,
          (if i = ti then { i with name := ti.name } else i) = i := by
        intro i _
        by_cases hi : i = ti
        · subst hi; simp
        · simp [hi]
      rw [List.map_congr_left hall]
      exact (List.map_id imgs).symm
    · simp [h1, h2]

theorem renameAttachmentFlow_eq (atts : List Attachment) (ta : Attachment)
    (value : Str) :
    renameAttachmentFlow atts ta value =
      if trimStr value = [] then atts
      else atts.map (fun a =>
        if a = ta then { a with name := trimStr value } else a) := by
  unfold renameAttachmentFlow renameSubmit renameAttachments
  by_cases h1 : trimStr value = []
  · simp [h1]
  · by_cases h2 : trimStr value = ta.name
    · simp only [h1, h2, ne_eq, not_true_eq_false, and_false, if_neg,
        not_false_eq_true, and_true, if_false]
      rw [if_neg (h2 ▸ h1)]
      have hall : ∀ a ∈ atts,
          (if a = ta then { a with name := ta.name } else a) = a := by
        intro a _
        by_cases ha : a = ta
        · subst ha; simp
        · simp [ha]
      rw [List.map_congr_left hall]
      exact (List.map_id atts).symm
    · simp [h1, h2]

theorem renameImages_proj (imgs : List ImageFile) (ti : ImageFile) (t : Str) :
    (imgs.map (fun i => if i = ti then { i with name := t } else i)).map
        (fun i => (i.id, i.content, i.size))
      = imgs.map (fun i => (i.id, i.content, i.size)) := by
  rw [List.map_map]
  apply List.map_congr_left
  intro i _
  by_cases hi : i = ti <;> simp [hi]

theorem renameAttachments_proj (atts : List Attachment) (ta : Attachment)
    (t : Str) :
    (atts.map (fun a => if a = ta then { a with name := t } else a)).map
        (fun a => (a.id, a.content, a.size))
      = atts.map (fun a => (a.id, a.content, a.size)) := by
  rw [List.map_map]
  apply List.map_congr_left
  intro a _
  by_cases ha : a = ta <;> simp [ha]

/-! ## Claims -/

/-- Claim C7: during decode, every non-directory entry other than
`README.md` is classified by its base file name (final path segment): an
entry whose base name has a recognized image extension (jpg, jpeg, png,
gif, webp — case-insensitive) becomes an image asset, any other becomes an
attachment asset; in both cases the display name is the base name, the
content is the entry's raw bytes, the size is the byte length, and
directory entries are skipped. -/
theorem c7_decode_classification (entries : ZipObj) :
    (readZipFile entries).images.map (fun i => (i.name, i.content, i.size))
      = (entries.filter
          (fun pe => !pe.2.isDir && isImageName (baseName pe.1))).map
          (fun pe => (baseName pe.1, pe.2.data, pe.2.data.length))
    ∧ (readZipFile entries).attachments
      = (entries.filter (fun pe => !pe.2.isDir
            && !isImageName (baseName pe.1) && !(pe.1 == readmeName))).map
          (fun pe => ⟨none, baseName pe.1, pe.2.data, pe.2.data.length⟩) :=
  ⟨classify_fst_proj 0 entries, classify_snd 0 entries⟩

/-- Claim C3 (code bug): `handleImageSave` replaces the matched image's
content but does not recompute `size`; at this input the stored size
stays 3 while the new content has length 5, so the size invariant fails
after content replacement. -/
theorem c3_size_not_updated :
    (handleImageSave [⟨"i1".toList, "a.png".toList, [0, 0, 0], 3⟩]
        "i1".toList [1, 2, 3, 4, 5]).map (fun i => (i.size, i.content.length))
      = [(3, 5)] ∧ (3 : Nat) ≠ 5 := by decide

/-- Claim C4 (code bug): decoding an archive with one plain attachment
entry produces an attachment whose id is absent (`none`), while upload
ingestion and image decode do assign identifiers. -/
theorem c4_decode_attachment_no_id :
    (readZipFile [("notes.txt".toList, ⟨false, [1, 2, 3]⟩)]).attachments.map
        (·.id) = [none]
    ∧ (handleAttachmentUpload 0 [("notes.txt".toList, [1, 2, 3])]).map (·.id)
      = [some (mintId 0)]
    ∧ (readZipFile [("x.png".toList, ⟨false, [9]⟩)]).images.map (·.id)
      = [mintId 0] := by decide

/-- Claim C9: removal is idempotent and removing an absent asset is a
no-op, for both the image and the attachment tables. -/
theorem c9_remove_idempotent (imgs : List ImageFile) (atts : List Attachment)
    (ti : ImageFile) (ta : Attachment) :
    removeImage (removeImage imgs ti) ti = removeImage imgs ti
    ∧ removeAttachment (removeAttachment atts ta) ta = removeAttachment atts ta
    ∧ (ti ∉ imgs → removeImage imgs ti = imgs)
    ∧ (ta ∉ atts → removeAttachment atts ta = atts) := by
  refine ⟨?_, ?_, ?_, ?_⟩
  · exact filter_all _ _ (fun x hx => (List.mem_filter.mp hx).2)
  · exact filter_all _ _ (fun x hx => (List.mem_filter.mp hx).2)
  · intro h
    refine filter_all _ _ (fun x hx => ?_)
    have hne : x ≠ ti := fun he => h (he ▸ hx)
    simp [hne]
  · intro h
    refine filter_all _ _ (fun x hx => ?_)
    have hne : x ≠ ta := fun he => h (he ▸ hx)
    simp [hne]

/-- Witness for C9 at concrete stores: removing an asset that is not in
the store leaves it unchanged. -/
theorem c9_remove_idempotent_witness :
    exImgB ∉ [exImg] ∧ removeImage [exImg] exImgB = [exImg] :=
  ⟨by decide,
    (c9_remove_idempotent [exImg] [exAtt] exImgB exAttB).2.2.1 (by decide)⟩

/-- Claim C10: only the entry at the exact path `README.md` supplies the
readme text; a nested `docs/README.md`-style entry becomes an attachment
asset named `README.md`, and when no root `README.md` exists the readme
text is empty. -/
theorem c10_readme_exact_path (entries : ZipObj) (p : Str) (e : ZEntry)
    (hmem : (p, e) ∈ entries) (hnd : e.isDir = false)
    (hp : p ≠ readmeName) (hb : baseName p = readmeName) :
    (⟨none, readmeName, e.data, e.data.length⟩ : Attachment)
        ∈ (readZipFile entries).attachments
    ∧ ((∀ q f, (q, f) ∈ entries → f.isDir = false → q ≠ readmeName) →
        (readZipFile entries).readme = []) := by
  constructor
  · have hpred : (!e.isDir && !isImageName (baseName p)
        && !(p == readmeName)) = true := by
      rw [hb, hnd]
      simp [hp, show isImageName readmeName = false from by decide]
    have hmf : (p, e) ∈ entries.filter (fun pe => !pe.2.isDir
        && !isImageName (baseName pe.1) && !(pe.1 == readmeName)) :=
      List.mem_filter.mpr ⟨hmem, hpred⟩
    have hmm : (⟨none, baseName p, e.data, e.data.length⟩ : Attachment)
        ∈ (entries.filter (fun pe => !pe.2.isDir
            && !isImageName (baseName pe.1) && !(pe.1 == readmeName))).map
          (fun pe => (⟨none, baseName pe.1, pe.2.data, pe.2.data.length⟩ :
            Attachment)) :=
      List.mem_map_of_mem _ hmf
    rw [hb] at hmm
    show _ ∈ (classifyFrom 0 entries).2
    rw [classify_snd]
    exact hmm
  · intro hno
    have hfind : entries.find? (fun pe => !pe.2.isDir && pe.1 == readmeName)
        = none := by
      rw [List.find?_eq_none]
      intro pe hpe hcontra
      obtain ⟨q, f⟩ := pe
      simp only [Bool.and_eq_true, Bool.not_eq_true', beq_iff_eq] at hcontra
      exact hno q f hpe hcontra.1 hcontra.2
    show (match zipFileLookup entries readmeName with
      | some e => e.data
      | none => []) = []
    unfold zipFileLookup
    rw [hfind]
    rfl

/-- Witness for C10: an archive whose only entry is `docs/README.md`
yields an empty readme and an attachment named `README.md`. -/
theorem c10_readme_exact_path_witness :
    ("docs/README.md".toList, (⟨false, [5, 6]⟩ : ZEntry))
        ∈ [("docs/README.md".toList, (⟨false, [5, 6]⟩ : ZEntry))]
    ∧ (⟨none, readmeName, [5, 6], 2⟩ : Attachment)
        ∈ (readZipFile [("docs/README.md".toList, ⟨false, [5, 6]⟩)]).attachments
    ∧ (readZipFile [("docs/README.md".toList, ⟨false, [5, 6]⟩)]).readme = [] := by
  refine ⟨by decide, ?_, ?_⟩
  · exact (c10_readme_exact_path
      [("docs/README.md".toList, ⟨false, [5, 6]⟩)]
      "docs/README.md".toList ⟨false, [5, 6]⟩
      (by decide) (by decide) (by decide) (by decide)).1
  · refine (c10_readme_exact_path
      [("docs/README.md".toList, ⟨false, [5, 6]⟩)]
      "docs/README.md".toList ⟨false, [5, 6]⟩
      (by decide) (by decide) (by decide) (by decide)).2 ?_
    intro q f hqf hnd'
    have hq : q = "docs/README.md".toList := by
      have hqe : (q, f) = ("docs/README.md".toList,
          (⟨false, [5, 6]⟩ : ZEntry)) := by simpa using hqf
      exact congrArg Prod.fst hqe
    rw [hq]
    decide

/-- Claim C8: a rename whose value trims to empty is rejected and the
prior display name is retained (the store is unchanged); a rename to a
non-empty trimmed value changes only the display name of the targeted
asset, leaving identity, content and size of every asset unchanged —
for both image and attachment stores. -/
theorem c8_rename_behaviour (imgs : List ImageFile) (atts : List Attachment)
    (ti : ImageFile) (ta : Attachment) (value : Str) :
    (trimStr value = [] →
      renameImageFlow imgs ti value = imgs
      ∧ renameAttachmentFlow atts ta value = atts)
    ∧ (trimStr value ≠ [] →
      renameImageFlow imgs ti value
          = imgs.map (fun i =>
              if i = ti then { i with name := trimStr value } else i)
      ∧ renameAttachmentFlow atts ta value
          = atts.map (fun a =>
              if a = ta then { a with name := trimStr value } else a))
    ∧ (renameImageFlow imgs ti value).map (fun i => (i.id, i.content, i.size))
        = imgs.map (fun i => (i.id, i.content, i.size))
    ∧ (renameAttachmentFlow atts ta value).map
        (fun a => (a.id, a.content, a.size))
        = atts.map (fun a => (a.id, a.content, a.size)) := by
  refine ⟨?_, ?_, ?_, ?_⟩
  · intro h
    rw [renameImageFlow_eq, renameAttachmentFlow_eq, if_pos h, if_pos h]
    exact ⟨rfl, rfl⟩
  · intro h
    rw [renameImageFlow_eq, renameAttachmentFlow_eq, if_neg h, if_neg h]
    exact ⟨rfl, rfl⟩
  · rw [renameImageFlow_eq]
    by_cases h : trimStr value = []
    · rw [if_pos h]
    · rw [if_neg h]
      exact renameImages_proj imgs ti (trimStr value)
  · rw [renameAttachmentFlow_eq]
    by_cases h : trimStr value = []
    · rw [if_pos h]
    · rw [if_neg h]
      exact renameAttachments_proj atts ta (trimStr value)

/-- Witness for C8: a whitespace-only value leaves the store unchanged;
a padded value renames the target to its trimmed form. -/
theorem c8_rename_behaviour_witness :
    (trimStr "   ".toList = [] ∧ renameImageFlow [exImg] exImg "   ".toList = [exImg])
    ∧ (trimStr " new.png ".toList ≠ [] ∧
        renameImageFlow [exImg] exImg " new.png ".toList
          = [{ exImg with name := "new.png".toList }]) :=
  ⟨⟨by decide,
    ((c8_rename_behaviour [exImg] [exAtt] exImg exAtt "   ".toList).1
      (by decide)).1⟩,
   ⟨by decide, by
    have h := ((c8_rename_behaviour [exImg] [exAtt] exImg exAtt
      " new.png ".toList).2.1 (by decide)).1
    rw [h]
    decide⟩⟩

/-- Claim C2 counterexample: encoding two images both named `a.png` does
**not** produce `images/a.png` and `images/a-2.png`; the entry list has a
single `images/a.png` whose content is the second image's bytes (the JS
object assignment overwrote the first), and no `images/a-2.png` exists. -/
theorem c2_counterexample :
    (createZipFile [] [⟨"i1".toList, "a.png".toList, [1], 1⟩,
        ⟨"i2".toList, "a.png".toList, [2, 3], 2⟩] []).map Prod.fst
      = [readmeName, imagesRoot, "images/a.png".toList, attachmentsRoot]
    ∧ "images/a-2.png".toList ∉
        (createZipFile [] [⟨"i1".toList, "a.png".toList, [1], 1⟩,
          ⟨"i2".toList, "a.png".toList, [2, 3], 2⟩] []).map Prod.fst
    ∧ ((createZipFile [] [⟨"i1".toList, "a.png".toList, [1], 1⟩,
          ⟨"i2".toList, "a.png".toList, [2, 3], 2⟩] []).find?
        (fun pe => pe.1 == "images/a.png".toList)).map (fun pe => pe.2.data)
      = some [2, 3] := by decide

/-- Claim C2 (amended): when two images share a display name, no suffix is
ever generated — both are written to `images/<name>` and the later
assignment overwrites the earlier one in place, so the archive holds
exactly one image entry carrying the second image's content. -/
theorem c2_encode_overwrite (r : Bytes) (i1 i2 : ImageFile)
    (hn : i1.name = i2.name) (hne : i2.name ≠ []) :
    createZipFile r [i1, i2] []
      = [(readmeName, ⟨false, r⟩), (imagesRoot, ⟨true, []⟩),
         (imagesRoot ++ i2.name, ⟨false, i2.content⟩),
         (attachmentsRoot, ⟨true, []⟩)] := by
  have h12 : objInsert (objInsert [] readmeName ⟨false, r⟩)
      imagesRoot ⟨true, []⟩
      = [(readmeName, ⟨false, r⟩), (imagesRoot, ⟨true, []⟩)] := by
    have hb : (readmeName == imagesRoot) = false := by decide
    simp [objInsert, hb]
  have hfresh1 : objInsert [(readmeName, (⟨false, r⟩ : ZEntry)),
      (imagesRoot, ⟨true, []⟩)] (imagesRoot ++ i1.name) ⟨false, i1.content⟩
      = [(readmeName, ⟨false, r⟩), (imagesRoot, ⟨true, []⟩),
         (imagesRoot ++ i1.name, ⟨false, i1.content⟩)] := by
    rw [objInsert_fresh]
    · rfl
    · intro kv hkv
      rcases List.mem_cons.mp hkv with h | h
      · subst h
        exact fun he => imagesKey_ne_readme i1.name he.symm
      · have : kv = (imagesRoot, ⟨true, []⟩) := by simpa using h
        subst this
        exact fun he => append_ne_self_of_ne_nil imagesRoot i1.name
          (hn ▸ hne) he.symm
  have hover : objInsert [(readmeName, (⟨false, r⟩ : ZEntry)),
      (imagesRoot, ⟨true, []⟩),
      (imagesRoot ++ i1.name, ⟨false, i1.content⟩)]
      (imagesRoot ++ i2.name) ⟨false, i2.content⟩
      = [(readmeName, ⟨false, r⟩), (imagesRoot, ⟨true, []⟩),
         (imagesRoot ++ i2.name, ⟨false, i2.content⟩)] := by
    have hkey : imagesRoot ++ i1.name = imagesRoot ++ i2.name := by rw [hn]
    have hany : ([(readmeName, (⟨false, r⟩ : ZEntry)),
        (imagesRoot, ⟨true, []⟩),
        (imagesRoot ++ i1.name, ⟨false, i1.content⟩)].any
          (fun p => p.1 == imagesRoot ++ i2.name)) = true := by
      simp [hkey]
    unfold objInsert
    rw [if_pos hany]
    have hb1 : (readmeName == imagesRoot ++ i2.name) = false := by
      simp [(imagesKey_ne_readme i2.name).symm]
    have hb2 : (imagesRoot == imagesRoot ++ i2.name) = false := by
      rw [beq_eq_false_iff_ne]
      exact fun he => append_ne_self_of_ne_nil imagesRoot i2.name hne he.symm
    have hb3 : (imagesRoot ++ i1.name == imagesRoot ++ i2.name) = true := by
      rw [hkey]
      exact beq_self_eq_true _
    simp [hb1, hb2, hb3]
    refine ⟨?_, hne, ?_⟩
    · intro he
      exact absurd he.symm (imagesKey_ne_readme i2.name)
    · intro hcon
      exact absurd hn hcon
  have hattdir : objInsert [(readmeName, (⟨false, r⟩ : ZEntry)),
      (imagesRoot, ⟨true, []⟩),
      (imagesRoot ++ i2.name, ⟨false, i2.content⟩)]
      attachmentsRoot ⟨true, []⟩
      = [(readmeName, ⟨false, r⟩), (imagesRoot, ⟨true, []⟩),
         (imagesRoot ++ i2.name, ⟨false, i2.content⟩),
         (attachmentsRoot, ⟨true, []⟩)] := by
    rw [objInsert_fresh]
    · rfl
    · intro kv hkv
      rcases List.mem_cons.mp hkv with h | h
      · subst h
        exact (by decide : readmeName ≠ attachmentsRoot)
      · rcases List.mem_cons.mp h with h | h
        · subst h
          exact (by decide : imagesRoot ≠ attachmentsRoot)
        · have : kv = (imagesRoot ++ i2.name, ⟨false, i2.content⟩) := by
            simpa using h
          subst this
          exact fun he => attachmentsRoot_ne_imagesKey i2.name he.symm
  show objInsert (objInsert (objInsert (objInsert (objInsert []
      readmeName ⟨false, r⟩) imagesRoot ⟨true, []⟩)
      (imagesRoot ++ i1.name) ⟨false, i1.content⟩)
      (imagesRoot ++ i2.name) ⟨false, i2.content⟩)
      attachmentsRoot ⟨true, []⟩ = _
  rw [h12, hfresh1, hover, hattdir]

/-- Witness for C2 (amended) at two concrete images named `a.png`. -/
theorem c2_encode_overwrite_witness :
    ("a.png".toList ≠ ([] : Str))
    ∧ createZipFile [] [⟨"i1".toList, "a.png".toList, [1], 1⟩,
        ⟨"i2".toList, "a.png".toList, [2, 3], 2⟩] []
      = [(readmeName, ⟨false, []⟩), (imagesRoot, ⟨true, []⟩),
         (imagesRoot ++ "a.png".toList, ⟨false, [2, 3]⟩),
         (attachmentsRoot, ⟨true, []⟩)] :=
  ⟨by decide,
   c2_encode_overwrite [] ⟨"i1".toList, "a.png".toList, [1], 1⟩
     ⟨"i2".toList, "a.png".toList, [2, 3], 2⟩ (by decide) (by decide)⟩

/-- `resolveAttachment` is the first match of `attMatch` after URL
decoding (helper for claim C5). -/
theorem resolveAttachment_find (href : Str) (atts : List Attachment)
    (d : Str) (h : pctDecode href = some d) (a : Attachment) :
    resolveAttachment href atts = some (ARes.found a) ↔
      atts.find? (attMatch d) = some a := by
  unfold resolveAttachment
  rw [h, Option.map_some']
  cases hf : atts.find? (attMatch d) with
  | none => simp
  | some b => simp

/-- `resolveImage` is the first match of `imgMatch` after cleaning and URL
decoding (helper for claim C6). -/
theorem resolveImage_find (src : Str) (imgs : List ImageFile)
    (d : Str) (h : pctDecode (removeBangBs src) = some d) (img : ImageFile) :
    resolveImage src imgs = some (ImgRes.found img) ↔
      imgs.find? (imgMatch d) = some img := by
  unfold resolveImage
  rw [h, Option.map_some']
  cases hf : imgs.find? (imgMatch d) with
  | none => simp
  | some b => simp

/-- Claim C5 counterexample: the attachment resolver does **not** apply
the image pipeline's cleaning (punctuation stripping, trimming) or its
five match predicates.  With a stray `)` in the href, the image-style
pipeline (modelled from the spec's words as `resolveAttachmentClaim`)
finds the attachment, but the source's `components.a` does not. -/
theorem c5_counterexample :
    resolveAttachment "attachments/a.txt)".toList
        [⟨some "id3".toList, "a.txt".toList, [1], 1⟩] = some ARes.plain
    ∧ resolveAttachmentClaim "attachments/a.txt)".toList
        [⟨some "id3".toList, "a.txt".toList, [1], 1⟩]
      = some (ARes.found ⟨some "id3".toList, "a.txt".toList, [1], 1⟩)
    ∧ resolveAttachment "attachments/a.txt)".toList
        [⟨some "id3".toList, "a.txt".toList, [1], 1⟩]
      ≠ resolveAttachmentClaim "attachments/a.txt)".toList
        [⟨some "id3".toList, "a.txt".toList, [1], 1⟩] := by decide

/-- Claim C5 (amended): attachment resolution applies only URL-decoding
to the href — no punctuation stripping, no trimming — and accepts exactly
two predicates, equality with `attachments/<name>` or suffix-match with
`attachments/<name>`; the first attachment in store order satisfying one
of them wins, and with no match a plain link results. -/
theorem c5_attachment_resolution (href : Str) (atts : List Attachment)
    (d : Str) (h : pctDecode href = some d) :
    (∀ a : Attachment, resolveAttachment href atts = some (ARes.found a) ↔
      ((d == attachmentsRoot ++ a.name
          || endsWithStr d (attachmentsRoot ++ a.name)) = true
        ∧ ∃ l₁ l₂, atts = l₁ ++ a :: l₂ ∧ ∀ b ∈ l₁, attMatch d b = false))
    ∧ ((∀ a ∈ atts, attMatch d a = false) →
        resolveAttachment href atts = some ARes.plain) := by
  constructor
  · intro a
    exact (resolveAttachment_find href atts d h a).trans
      (find_first_iff (attMatch d) atts a)
  · intro hnone
    unfold resolveAttachment
    rw [h, Option.map_some']
    have hf : atts.find? (attMatch d) = none :=
      List.find?_eq_none.mpr (fun x hx => by simp [hnone x hx])
    rw [hf]

/-- Witness for C5 (amended): an exact `attachments/<name>` href resolves
to the attachment. -/
theorem c5_attachment_resolution_witness :
    pctDecode "attachments/notes.txt".toList
      = some "attachments/notes.txt".toList
    ∧ resolveAttachment "attachments/notes.txt".toList [exAtt]
      = some (ARes.found exAtt) :=
  ⟨by decide, by
    have h := (c5_attachment_resolution "attachments/notes.txt".toList
      [exAtt] "attachments/notes.txt".toList (by decide)).1 exAtt
    exact h.mpr ⟨by decide, [], [], rfl, by simp⟩⟩

/-- Claim C6 counterexample: `resolveImage` is not total and the
not-found value does not carry the fully cleaned target.  On `"%"` the
URL-decoding step fails (`URIError` in the source — no result at all),
and on `"images/zzz.png)"` the not-found value carries the decoded
string with its `)` still present, not the cleaned target. -/
theorem c6_counterexample :
    resolveImage "%".toList [] = none
    ∧ resolveImage "images/zzz.png)".toList []
      = some (ImgRes.notFound "images/zzz.png)".toList)
    ∧ cleanRef "images/zzz.png)".toList ≠ "images/zzz.png)".toList := by decide

/-- Claim C6 (amended): when the raw target percent-decodes successfully
(after `!`/`\` removal) to `d`, an image is returned exactly when it is
the first asset in store order whose cleaned target matches one of the
five predicates — equality with `images/<name>`, equality with the bare
name, suffix-match with either, or equality with the cleaned name — and
when no asset matches, the result is a not-found value carrying `d`
(the decoded, not fully cleaned, target); a malformed escape yields no
result at all. -/
theorem c6_image_resolution (src : Str) (imgs : List ImageFile) (d : Str)
    (h : pctDecode (removeBangBs src) = some d) :
    (∀ img : ImageFile, resolveImage src imgs = some (ImgRes.found img) ↔
      ((cleanRef d == imagesRoot ++ img.name || cleanRef d == img.name
          || endsWithStr (cleanRef d) (imagesRoot ++ img.name)
          || endsWithStr (cleanRef d) img.name
          || cleanRef d == cleanRef img.name) = true
        ∧ ∃ l₁ l₂, imgs = l₁ ++ img :: l₂ ∧ ∀ b ∈ l₁, imgMatch d b = false))
    ∧ ((∀ img ∈ imgs, imgMatch d img = false) →
        resolveImage src imgs = some (ImgRes.notFound d)) := by
  constructor
  · intro img
    exact (resolveImage_find src imgs d h img).trans
      (find_first_iff (imgMatch d) imgs img)
  · intro hnone
    unfold resolveImage
    rw [h, Option.map_some']
    have hf : imgs.find? (imgMatch d) = none :=
      List.find?_eq_none.mpr (fun x hx => by simp [hnone x hx])
    rw [hf]

/-- Witness for C6 (amended): the canonical `images/cat.png` target
resolves to the image named `cat.png`. -/
theorem c6_image_resolution_witness :
    pctDecode (removeBangBs "images/cat.png".toList)
      = some "images/cat.png".toList
    ∧ resolveImage "images/cat.png".toList [exImg]
      = some (ImgRes.found exImg) :=
  ⟨by decide, by
    have h := (c6_image_resolution "images/cat.png".toList [exImg]
      "images/cat.png".toList (by decide)).1 exImg
    exact h.mpr ⟨by decide, [], [], rfl, by simp⟩⟩

/-- Decoding any archive whose first entry is a root `README.md` file
recovers that entry's bytes as the readme (helper for claim C1). -/
theorem readZipFile_readme_head (r : Bytes) (rest : ZipObj) :
    (readZipFile ((readmeName, ⟨false, r⟩) :: rest)).readme = r := by
  show (match zipFileLookup ((readmeName, ⟨false, r⟩) :: rest) readmeName with
    | some e => e.data
    | none => []) = r
  unfold zipFileLookup
  rw [List.find?_cons_of_pos _ (by simp)]
  rfl

/-- Decoding the encoded layout recovers the image (name, content) pairs
in order (helper for claim C1). -/
theorem decode_entries_images (r : Bytes) (imgs : List ImageFile)
    (atts : List Attachment)
    (himg : ∀ i ∈ imgs, isImageName i.name = true ∧ '/' ∉ i.name)
    (hatt : ∀ a ∈ atts, isImageName a.name = false ∧ '/' ∉ a.name) :
    (readZipFile ((readmeName, ⟨false, r⟩) :: (imagesRoot, ⟨true, []⟩) ::
        (imgs.map (fun i =>
          (imagesRoot ++ i.name, (⟨false, i.content⟩ : ZEntry))))
        ++ ((attachmentsRoot, ⟨true, []⟩) ::
          atts.map (fun a =>
            (attachmentsRoot ++ a.name, (⟨false, a.content⟩ : ZEntry)))))).images.map
      (fun i => (i.name, i.content))
    = imgs.map (fun i => (i.name, i.content)) := by
  have hchar := classify_fst_proj 0
    ((readmeName, (⟨false, r⟩ : ZEntry)) :: (imagesRoot, ⟨true, []⟩) ::
      (imgs.map (fun i =>
        (imagesRoot ++ i.name, (⟨false, i.content⟩ : ZEntry))))
      ++ ((attachmentsRoot, ⟨true, []⟩) ::
        atts.map (fun a =>
          (attachmentsRoot ++ a.name, (⟨false, a.content⟩ : ZEntry)))))
  have hsplit : ((readmeName, (⟨false, r⟩ : ZEntry)) ::
      (imagesRoot, (⟨true, []⟩ : ZEntry)) ::
      (imgs.map (fun i =>
        (imagesRoot ++ i.name, (⟨false, i.content⟩ : ZEntry))))
      ++ ((attachmentsRoot, ⟨true, []⟩) ::
        atts.map (fun a =>
          (attachmentsRoot ++ a.name, (⟨false, a.content⟩ : ZEntry)))))
      = ([(readmeName, (⟨false, r⟩ : ZEntry)),
          (imagesRoot, (⟨true, []⟩ : ZEntry))] ++
        ((imgs.map (fun i =>
          (imagesRoot ++ i.name, (⟨false, i.content⟩ : ZEntry))))
        ++ ([(attachmentsRoot, (⟨true, []⟩ : ZEntry))] ++
          atts.map (fun a =>
            (attachmentsRoot ++ a.name, (⟨false, a.content⟩ : ZEntry)))))) := by
    simp
  rw [hsplit, List.filter_append, List.filter_append, List.filter_append,
    filter_none _ [(readmeName, (⟨false, r⟩ : ZEntry)),
      (imagesRoot, (⟨true, []⟩ : ZEntry))] (by
      intro x hx
      rcases List.mem_cons.mp hx with hh | hh
      · subst hh
        simp [show isImageName (baseName readmeName) = false from by decide]
      · have : x = (imagesRoot, (⟨true, []⟩ : ZEntry)) := by simpa using hh
        subst this
        simp),
    filter_all _ (imgs.map (fun i =>
      (imagesRoot ++ i.name, (⟨false, i.content⟩ : ZEntry)))) (by
      intro x hx
      obtain ⟨i, hi, rfl⟩ := List.mem_map.mp hx
      have hb : baseName (imagesRoot ++ i.name) = i.name :=
        baseName_concat "images".toList i.name (himg i hi).2
      simp [hb, (himg i hi).1]),
    filter_none _ [(attachmentsRoot, (⟨true, []⟩ : ZEntry))] (by
      intro x hx
      have : x = (attachmentsRoot, (⟨true, []⟩ : ZEntry)) := by simpa using hx
      subst this
      simp),
    filter_none _ (atts.map (fun a =>
      (attachmentsRoot ++ a.name, (⟨false, a.content⟩ : ZEntry)))) (by
      intro x hx
      obtain ⟨a, ha, rfl⟩ := List.mem_map.mp hx
      have hb : baseName (attachmentsRoot ++ a.name) = a.name :=
        baseName_concat "attachments".toList a.name (hatt a ha).2
      simp [hb, (hatt a ha).1])] at hchar
  simp only [List.append_nil, List.nil_append] at hchar
  rw [List.map_map] at hchar
  have h2 := congrArg (List.map (fun t : Str × Bytes × Nat => (t.1, t.2.1)))
    hchar
  rw [List.map_map, List.map_map] at h2
  have hmap : imgs.map
      (fun i : ImageFile => (baseName (imagesRoot ++ i.name), i.content))
      = imgs.map (fun i : ImageFile => (i.name, i.content)) :=
    List.map_congr_left (fun i hi => by
      have hb : baseName (imagesRoot ++ i.name) = i.name :=
        baseName_concat "images".toList i.name (himg i hi).2
      rw [hb])
  exact h2.trans hmap

/-- Decoding the encoded layout recovers the attachment (name, content)
pairs in order (helper for claim C1). -/
theorem decode_entries_attachments (r : Bytes) (imgs : List ImageFile)
    (atts : List Attachment)
    (himg : ∀ i ∈ imgs, isImageName i.name = true ∧ '/' ∉ i.name)
    (hatt : ∀ a ∈ atts, isImageName a.name = false ∧ '/' ∉ a.name) :
    (readZipFile ((readmeName, ⟨false, r⟩) :: (imagesRoot, ⟨true, []⟩) ::
        (imgs.map (fun i =>
          (imagesRoot ++ i.name, (⟨false, i.content⟩ : ZEntry))))
        ++ ((attachmentsRoot, ⟨true, []⟩) ::
          atts.map (fun a =>
            (attachmentsRoot ++ a.name, (⟨false, a.content⟩ : ZEntry)))))).attachments.map
      (fun a => (a.name, a.content))
    = atts.map (fun a => (a.name, a.content)) := by
  have hchar := classify_snd 0
    ((readmeName, (⟨false, r⟩ : ZEntry)) :: (imagesRoot, ⟨true, []⟩) ::
      (imgs.map (fun i =>
        (imagesRoot ++ i.name, (⟨false, i.content⟩ : ZEntry))))
      ++ ((attachmentsRoot, ⟨true, []⟩) ::
        atts.map (fun a =>
          (attachmentsRoot ++ a.name, (⟨false, a.content⟩ : ZEntry)))))
  have hsplit : ((readmeName, (⟨false, r⟩ : ZEntry)) ::
      (imagesRoot, (⟨true, []⟩ : ZEntry)) ::
      (imgs.map (fun i =>
        (imagesRoot ++ i.name, (⟨false, i.content⟩ : ZEntry))))
      ++ ((attachmentsRoot, ⟨true, []⟩) ::
        atts.map (fun a =>
          (attachmentsRoot ++ a.name, (⟨false, a.content⟩ : ZEntry)))))
      = ([(readmeName, (⟨false, r⟩ : ZEntry)),
          (imagesRoot, (⟨true, []⟩ : ZEntry))] ++
        ((imgs.map (fun i =>
          (imagesRoot ++ i.name, (⟨false, i.content⟩ : ZEntry))))
        ++ ([(attachmentsRoot, (⟨true, []⟩ : ZEntry))] ++
          atts.map (fun a =>
            (attachmentsRoot ++ a.name, (⟨false, a.content⟩ : ZEntry)))))) := by
    simp
  rw [hsplit, List.filter_append, List.filter_append, List.filter_append,
    filter_none _ [(readmeName, (⟨false, r⟩ : ZEntry)),
      (imagesRoot, (⟨true, []⟩ : ZEntry))] (by
      intro x hx
      rcases List.mem_cons.mp hx with hh | hh
      · subst hh
        simp
      · have : x = (imagesRoot, (⟨true, []⟩ : ZEntry)) := by simpa using hh
        subst this
        simp),
    filter_none _ (imgs.map (fun i =>
      (imagesRoot ++ i.name, (⟨false, i.content⟩ : ZEntry)))) (by
      intro x hx
      obtain ⟨i, hi, rfl⟩ := List.mem_map.mp hx
      have hb : baseName (imagesRoot ++ i.name) = i.name :=
        baseName_concat "images".toList i.name (himg i hi).2
      simp [hb, (himg i hi).1]),
    filter_none _ [(attachmentsRoot, (⟨true, []⟩ : ZEntry))] (by
      intro x hx
      have : x = (attachmentsRoot, (⟨true, []⟩ : ZEntry)) := by simpa using hx
      subst this
      simp),
    filter_all _ (atts.map (fun a =>
      (attachmentsRoot ++ a.name, (⟨false, a.content⟩ : ZEntry)))) (by
      intro x hx
      obtain ⟨a, ha, rfl⟩ := List.mem_map.mp hx
      have hb : baseName (attachmentsRoot ++ a.name) = a.name :=
        baseName_concat "attachments".toList a.name (hatt a ha).2
      have hk : (attachmentsRoot ++ a.name == readmeName) = false := by
        rw [beq_eq_false_iff_ne]
        exact attachmentsKey_ne_readme a.name
      simp [hb, (hatt a ha).1, hk])] at hchar
  simp only [List.append_nil, List.nil_append] at hchar
  rw [List.map_map] at hchar
  have h2 := congrArg (List.map (fun a : Attachment => (a.name, a.content)))
    hchar
  rw [List.map_map] at h2
  have hmap : atts.map
      (fun a : Attachment => (baseName (attachmentsRoot ++ a.name), a.content))
      = atts.map (fun a : Attachment => (a.name, a.content)) :=
    List.map_congr_left (fun a ha => by
      have hb : baseName (attachmentsRoot ++ a.name) = a.name :=
        baseName_concat "attachments".toList a.name (hatt a ha).2
      rw [hb])
  exact h2.trans hmap

/-- Claim C1 counterexample: a bundle with unique per-namespace names —
one attachment named `x.png`, no images — does not round-trip: decode
re-classifies the attachment as an image because of its extension, so the
attachment (name, content) set changes from one element to empty. -/
theorem c1_counterexample :
    (readZipFile (createZipFile [] []
        [⟨some "id".toList, "x.png".toList, [7], 1⟩])).attachments.map
      (fun a => (a.name, a.content)) = []
    ∧ ([(⟨some "id".toList, "x.png".toList, [7], 1⟩ : Attachment)]).map
        (fun a => (a.name, a.content)) = [("x.png".toList, [7])]
    ∧ (readZipFile (createZipFile [] []
        [⟨some "id".toList, "x.png".toList, [7], 1⟩])).images.map
      (fun i => (i.name, i.content)) = [("x.png".toList, [7])] := by decide

/-- Claim C1 (amended): for bundles whose display names are unique per
namespace, contain no `/`, and are extension-consistent — every image
name carries a recognized image extension, no attachment name does (and
attachment names are non-empty) — `decode (encode B)` reproduces the
readme bytes and the per-namespace (display name, content) pairs in
order, hence as sets; identities are freshly minted by decode. -/
theorem c1_roundtrip (r : Bytes) (imgs : List ImageFile)
    (atts : List Attachment)
    (himg : ∀ i ∈ imgs, isImageName i.name = true ∧ '/' ∉ i.name)
    (hatt : ∀ a ∈ atts,
      isImageName a.name = false ∧ '/' ∉ a.name ∧ a.name ≠ [])
    (hui : (imgs.map (·.name)).Nodup)
    (hua : (atts.map (·.name)).Nodup) :
    (readZipFile (createZipFile r imgs atts)).readme = r
    ∧ (readZipFile (createZipFile r imgs atts)).images.map
        (fun i => (i.name, i.content))
      = imgs.map (fun i => (i.name, i.content))
    ∧ (readZipFile (createZipFile r imgs atts)).attachments.map
        (fun a => (a.name, a.content))
      = atts.map (fun a => (a.name, a.content)) := by
  have hE := createZipFile_eq r imgs atts
    (fun i hi => isImageName_ne_nil i.name (himg i hi).1)
    (fun a ha => (hatt a ha).2.2) hui hua
  rw [hE]
  exact ⟨readZipFile_readme_head r _,
    decode_entries_images r imgs atts himg
      (fun a ha => ⟨(hatt a ha).1, (hatt a ha).2.1⟩),
    decode_entries_attachments r imgs atts himg
      (fun a ha => ⟨(hatt a ha).1, (hatt a ha).2.1⟩)⟩

/-- Witness for C1 (amended) at a concrete bundle with one image and one
attachment. -/
theorem c1_roundtrip_witness :
    (readZipFile (createZipFile [10, 20] [exImg] [exAtt])).readme = [10, 20]
    ∧ (readZipFile (createZipFile [10, 20] [exImg] [exAtt])).images.map
        (fun i => (i.name, i.content)) = [("cat.png".toList, [1, 2])]
    ∧ (readZipFile (createZipFile [10, 20] [exImg] [exAtt])).attachments.map
        (fun a => (a.name, a.content)) = [("notes.txt".toList, [4, 5])] := by
  have h := c1_roundtrip [10, 20] [exImg] [exAtt]
    (by decide) (by decide) (by decide) (by decide)
  refine ⟨h.1, ?_, ?_⟩
  · rw [h.2.1]
    decide
  · rw [h.2.2]
    decide
